import Mathlib

/-!
Verification development for the Twitch clip downloader core
(`src/lib.rs`, `src/twitch_utils.rs`, `src/twitch.rs`,
`src/video_source_response.rs`).

Shallow embedding conventions:
* Rust `u32` values are `Nat` with explicit `< 2 ^ 32` bounds where overflow
  matters (`parseU32` rejects out-of-range labels, as `u32::from_str` does).
* Byte strings (`&[u8]`, URL text) are `List Nat`, one entry per byte.
* Rust `f32` frame rates are modelled by the exact rational value the float
  denotes (`Rat`); `f32::round` rounds half away from zero and `as u32`
  saturates, which `f32RoundAsU32` reproduces.
* `chrono` instants and durations are `Int` (a count of time units);
  `chrono::Duration / i32` truncates toward zero, i.e. `Int.tdiv`.
* Fallible Rust code returns `Except`/`Option`; a `none` result of
  `split_date_range` marks the two abnormal executions of the Rust function
  (integer division by zero, which panics, and a non-terminating loop).
* Network and file-system effects are passed in as explicit oracle data
  (lists of page responses, per-task outcomes, stream items).
-/

/-! ## Quality Resolver: data model (`lib.rs`, `video_source_response.rs`) -/

/-- Bytes of a UTF-8 string, one `Nat` (< 256) per byte. -/
abbrev Bytes := List Nat

/-- Mirror of `video_source_response::PlaybackAccessToken`. -/
structure PlaybackAccessToken where
  signature : Bytes
  value : Bytes
deriving DecidableEq, Repr

/-- Mirror of `video_source_response::VideoQuality`. The `frame_rate` field
carries the exact rational value of the `f32` in the response. -/
structure VideoQuality where
  quality : String
  frame_rate : Rat
  source_url : Bytes
deriving DecidableEq, Repr

/-- Mirror of `video_source_response::Clip`. -/
structure Clip where
  playback_access_token : PlaybackAccessToken
  video_qualities : List VideoQuality
deriving DecidableEq, Repr

/-- Mirror of `video_source_response::Data`. -/
structure Data where
  clip : Clip
deriving DecidableEq, Repr

/-- Mirror of `video_source_response::Extensions`. -/
structure Extensions where
  duration_milliseconds : Int
  operation_name : String
  request_id : String
deriving DecidableEq, Repr

/-- Mirror of `video_source_response::VideoSourceResponse`. -/
structure VideoSourceResponse where
  data : Data
  extensions : Extensions
deriving DecidableEq, Repr

/-- Mirror of `lib.rs` `struct SourceFile`. The URL is kept as the byte
string handed to `Url::from_str`. -/
structure SourceFile where
  quality : Nat
  frame_rate : Nat
  url : Bytes
deriving DecidableEq, Repr

/-- Mirror of `impl Ord for SourceFile` in `lib.rs`: comparison delegates to
the `quality` field alone. -/
def SourceFile.cmp (a b : SourceFile) : Ordering :=
  compare a.quality b.quality

/-- Fold step of Rust `Iterator::max`: keep the current element whenever the
accumulated maximum is not strictly greater (`Ord::cmp` ties go to the later
element). -/
def maxStep (acc : Option SourceFile) (x : SourceFile) : Option SourceFile :=
  match acc with
  | none => some x
  | some m => if SourceFile.cmp m x = Ordering.gt then some m else some x

/-- Semantics of Rust `Iterator::max` (as used in `download_clip` and the CLI
handlers): fold with `maxStep`, so the last maximal element wins. -/
def rustIterMax (l : List SourceFile) : Option SourceFile :=
  l.foldl maxStep none

/-- Index-level restatement of `rustIterMax` computed from the quality values
alone: returns the position and value of the last maximal quality. Used to
state that selection never looks at frame rate or URL. -/
def argmaxLastAux : Nat → Option (Nat × Nat) → List Nat → Option (Nat × Nat)
  | _, acc, [] => acc
  | i, none, q :: rest => argmaxLastAux (i + 1) (some (i, q)) rest
  | i, some (mi, mq), q :: rest =>
      argmaxLastAux (i + 1)
        (if compare mq q = Ordering.gt then some (mi, mq) else some (i, q)) rest

/-- Position (and value) of the candidate Rust `Iterator::max` selects, as a
function of the quality list only. -/
def argmaxLast (qs : List Nat) : Option (Nat × Nat) :=
  argmaxLastAux 0 none qs

/-- Errors of the resolution path in `download_clip` (`lib.rs`): an empty
candidate set is reported as the no-source error. -/
inductive ResolveError where
  | noSourceFound
deriving DecidableEq, Repr

/-- Best-candidate selection step of `download_clip` (`lib.rs` lines 156-162):
`source_files.iter().max()` with the `None` case logged as
"Could not find source file". -/
def selectBest (l : List SourceFile) : Except ResolveError SourceFile :=
  match rustIterMax l with
  | some b => Except.ok b
  | none => Except.error ResolveError.noSourceFound

/-! ## Quality Resolver: URL construction (`format_source_urls`) -/

/-- Predicate of the `percent_encoding::NON_ALPHANUMERIC` encode set,
complemented: bytes kept verbatim are exactly the ASCII alphanumerics. -/
def isAsciiAlphanum (b : Nat) : Bool :=
  (48 ≤ b && b ≤ 57) || (65 ≤ b && b ≤ 90) || (97 ≤ b && b ≤ 122)

/-- Uppercase hexadecimal digit, as emitted by the `percent_encoding` crate. -/
def hexDigitUpper (n : Nat) : Nat :=
  if n < 10 then 48 + n else 55 + n

/-- Encoding of one byte under the `NON_ALPHANUMERIC` set: alphanumerics pass
through, every other byte becomes `%XX` with uppercase hex digits. -/
def encodeByte (b : Nat) : Bytes :=
  if isAsciiAlphanum b then [b] else [37, hexDigitUpper (b / 16), hexDigitUpper (b % 16)]

/-- Mirror of `percent_encode(token.as_bytes(), NON_ALPHANUMERIC)`. -/
def percentEncode (bs : Bytes) : Bytes :=
  bs.flatMap encodeByte

/-- Bytes of an ASCII string literal. -/
def strBytes (s : String) : Bytes :=
  s.toList.map Char.toNat

/-- Semantics of Rust `u32::from_str` (used by `quality.parse::<u32>()`):
an optional leading `+`, then one or more ASCII digits, value below `2 ^ 32`. -/
def parseU32 (s : String) : Option Nat :=
  let cs := s.toList
  let ds := match cs with
    | '+' :: rest => rest
    | other => other
  if ds.isEmpty then none
  else if ds.all Char.isDigit then
    let v := ds.foldl (fun a c => a * 10 + (c.toNat - 48)) 0
    if v < 2 ^ 32 then some v else none
  else none

/-- Semantics of `f32::round`: nearest integer, ties away from zero. The
argument is the exact rational value of the float. -/
def roundHalfAwayFromZero (q : Rat) : Int :=
  if 0 ≤ q.num then Int.fdiv (2 * q.num + q.den) (2 * q.den)
  else - Int.fdiv (2 * (-q.num) + q.den) (2 * q.den)

/-- Semantics of `frame_rate.round() as u32`: round half away from zero, then
saturate into the `u32` range. -/
def f32RoundAsU32 (q : Rat) : Nat :=
  let r := roundHalfAwayFromZero q
  if r ≤ 0 then 0 else min r.toNat (2 ^ 32 - 1)

/-- Errors of `format_source_urls`: a quality label `u32::from_str` rejects.
(`Url::from_str` is not modelled; the URL is kept as the formatted byte
string handed to it.) -/
inductive FormatError where
  | malformedQuality (label : String)
deriving DecidableEq, Repr

/-- Translation of one loop iteration of `format_source_urls` (`lib.rs` lines
46-54): parse the quality label, round the frame rate, and format
`"{url}?sig={sig}&token={encoded_token}"`. -/
def formatOne (sig encodedToken : Bytes) (q : VideoQuality) : Except FormatError SourceFile :=
  match parseU32 q.quality with
  | none => Except.error (FormatError.malformedQuality q.quality)
  | some v =>
      Except.ok
        { quality := v
          frame_rate := f32RoundAsU32 q.frame_rate
          url := q.source_url ++ strBytes "?sig=" ++ sig ++ strBytes "&token=" ++ encodedToken }

/-- Sequential formatting loop of `format_source_urls`: the `?` operator
aborts the whole function at the first parse failure. -/
def formatList (sig encodedToken : Bytes) : List VideoQuality → Except FormatError (List SourceFile)
  | [] => Except.ok []
  | q :: rest =>
      match formatOne sig encodedToken q with
      | Except.error e => Except.error e
      | Except.ok sf =>
          match formatList sig encodedToken rest with
          | Except.error e => Except.error e
          | Except.ok sfs => Except.ok (sf :: sfs)

/-- Translation of `format_source_urls` (`lib.rs` lines 41-57). -/
def format_source_urls (response : VideoSourceResponse) : Except FormatError (List SourceFile) :=
  let sig := response.data.clip.playback_access_token.signature
  let token := response.data.clip.playback_access_token.value
  let encodedToken := percentEncode token
  formatList sig encodedToken response.data.clip.video_qualities

/-! ## Listing Fetcher (`twitch_utils.rs` `get_clips`) -/

/-- Listing record, identified by its opaque id (the `helix::clips::Clip`
payload beyond the id is irrelevant to the fetch logic). -/
abbrev ClipRecord := String

/-- One page of the remote listing endpoint: records plus an optional
continuation cursor (`response.data`, `response.pagination`). -/
structure Page where
  data : List ClipRecord
  pagination : Option String
deriving DecidableEq, Repr

/-- Mirror of `get_clips::GetClipsRequest` as built in `twitch_utils.rs`
lines 91-96: fixed filters plus the mutable `after` cursor. -/
structure GetClipsRequest where
  broadcaster_id : String
  started_at : Option String
  ended_at : Option String
  first : Option Nat
  after : Option String
deriving DecidableEq, Repr

/-- Pagination loop of `get_clips` (`twitch_utils.rs` lines 99-110). The
remote service is an oracle: the list holds the successive responses (or
transport/decode failures) to the successive requests. The function returns
the request trace alongside the result. An exhausted oracle stands for a
remote that never answers and is reported as a transport error. -/
def getClipsGo : List (Except String Page) → GetClipsRequest → Option String → List ClipRecord →
    List GetClipsRequest × Except String (List ClipRecord)
  | [], req, cursor, _ => ([{ req with after := cursor }], Except.error "no response")
  | resp :: rest, req, cursor, acc =>
      let req' := { req with after := cursor }
      match resp with
      | Except.error e => ([req'], Except.error e)
      | Except.ok page =>
          match page.pagination with
          | some c =>
              let next := getClipsGo rest req' (some c) (acc ++ page.data)
              (req' :: next.1, next.2)
          | none => ([req'], Except.ok (acc ++ page.data))

/-- Translation of `twitch_utils::get_clips` (lines 82-112): build the base
request from the filters and run the cursor loop starting with no cursor and
an empty accumulator. (`twitch.rs::get_clips` is the same loop without the
time filters.) -/
def get_clips (broadcaster_id started_at ended_at : String) (first : Option Nat)
    (responses : List (Except String Page)) :
    List GetClipsRequest × Except String (List ClipRecord) :=
  getClipsGo responses
    { broadcaster_id := broadcaster_id
      started_at := some started_at
      ended_at := some ended_at
      first := first
      after := none }
    none []

/-! ## Range Partitioner (`twitch_utils.rs` `split_date_range`) -/

/-- Mirror of `twitch_utils::DateChunkingType`. Durations are `Int` counts of
time units. -/
inductive DateChunkingType where
  | ByDuration (step : Int)
  | ByNumber (num : Nat)
deriving DecidableEq, Repr

/-- While loop of `split_date_range` (lines 34-39), fuelled: from `current`,
emit `(current, min (current + step) e)` while `current < e`. The fuel is an
upper bound on the iteration count; `split_date_range` supplies enough fuel
whenever `0 < step`, and the `none` of exhausted fuel never escapes. -/
def splitLoop : Nat → Int → Int → Int → Option (List (Int × Int))
  | 0, _, _, _ => none
  | fuel + 1, e, step, current =>
      if current < e then
        let next := min (current + step) e
        (splitLoop fuel e step next).map (fun rest => (current, next) :: rest)
      else some []

/-- Translation of `split_date_range` (`twitch_utils.rs` lines 26-42).
`ByNumber` divides the span by the count with Rust `i32` semantics
(truncation toward zero, `Int.tdiv`); dividing by zero panics, modelled as
`none`. When the computed step is not positive while `start < end`, the Rust
while loop never terminates, also modelled as `none`. -/
def split_date_range (start _end : Int) (chunking_type : DateChunkingType) :
    Option (List (Int × Int)) :=
  match chunking_type with
  | DateChunkingType.ByDuration d =>
      if 0 < d then splitLoop ((_end - start).toNat + 1) _end d start
      else if start < _end then none
      else some []
  | DateChunkingType.ByNumber n =>
      if n = 0 then none
      else
        let step := Int.tdiv (_end - start) n
        if 0 < step then splitLoop ((_end - start).toNat + 1) _end step start
        else if start < _end then none
        else some []

/-! ## Chunked fetch (`twitch_utils.rs` `get_clips_chunked`) -/

/-- Merge loop of `get_clips_chunked` (lines 70-77): successful partition
results are appended to the clip list in partition order, failed partitions
only append their error to the log. -/
def mergeChunkResults (results : List (Except String (List ClipRecord))) :
    List ClipRecord × List String :=
  results.foldl
    (fun acc r =>
      match r with
      | Except.ok sub => (acc.1 ++ sub, acc.2)
      | Except.error err => (acc.1, acc.2 ++ [err]))
    ([], [])

/-- Translation of `get_clips_chunked` (lines 55-80): split the range, run
one fetch per sub-range (the oracle `fetch` yields each partition's outcome),
and merge. `none` only when `split_date_range` itself is abnormal. -/
def get_clips_chunked (start _end : Int) (chunking_type : DateChunkingType)
    (fetch : Int × Int → Except String (List ClipRecord)) :
    Option (List ClipRecord × List String) :=
  (split_date_range start _end chunking_type).map
    (fun ranges => mergeChunkResults (ranges.map fetch))

/-! ## Download Orchestrator (`lib.rs` `download_clips`, `download_file`) -/

/-- Semantics of `slice::chunks` for a positive chunk size, fuelled by the
list length so that the definition is structural and evaluable. Rust
`chunks(0)` panics; `download_clips` guards that case explicitly. -/
def chunksOfAux (c : Nat) : Nat → List α → List (List α)
  | 0, _ => []
  | _, [] => []
  | fuel + 1, x :: xs => (x :: xs.take (c - 1)) :: chunksOfAux c fuel (xs.drop (c - 1))

/-- Consecutive chunks of size `c` (last possibly smaller), as produced by
`clips.chunks(chunk_size)` when `0 < c`. -/
def chunksOf (c : Nat) (l : List α) : List (List α) :=
  chunksOfAux c l.length l

/-- Observable state of one `download_clips` run: the progress-bar position,
every task that was driven to completion (settled), and the tasks whose
failure was logged inside `download_clip`/`download_file`. -/
structure OrchResult where
  progress : Nat
  settled : List Nat
  loggedFailures : List Nat
deriving DecidableEq, Repr

/-- Translation of `download_clips` (`lib.rs` lines 96-108) over task indices
`0..n-1`. The oracle `outcome` tells whether a task's `download_clip` run
succeeds; `download_clip` returns `()` either way (every failure path logs
and returns), so the loop body ignores the results of `join_all` and the bar
advances by `chunk.len()` after each batch. Chunk size `0` makes
`slice::chunks` panic, modelled as `none`. -/
def download_clips (n chunk_size : Nat) (outcome : Nat → Bool) : Option OrchResult :=
  if chunk_size = 0 then none
  else
    some ((chunksOf chunk_size (List.range n)).foldl
      (fun st chunk =>
        { progress := st.progress + chunk.length
          settled := st.settled ++ chunk
          loggedFailures := st.loggedFailures ++ chunk.filter (fun t => !(outcome t)) })
      { progress := 0, settled := [], loggedFailures := [] })

/-- Scheduling events of the orchestrator: a task's transfer begins, or it
settles (succeeds or fails). -/
inductive Ev (α : Type) where
  | begin (t : α)
  | settle (t : α)
deriving DecidableEq, Repr

/-- Recognizer for begin events. -/
def Ev.isBegin : Ev α → Bool
  | Ev.begin _ => true
  | Ev.settle _ => false

/-- Recognizer for settle events. -/
def Ev.isSettle : Ev α → Bool
  | Ev.begin _ => false
  | Ev.settle _ => true

/-- Event segment of one batch: `join_all` spawns every future of the chunk,
then is awaited until every one of them has settled; only then does the loop
move on. Within a batch the real interleaving of settles is arbitrary, but
every begin precedes the batch boundary and every settle does too, which is
what the segment records. -/
def batchSeg (chunk : List α) : List (Ev α) :=
  chunk.map Ev.begin ++ chunk.map Ev.settle

/-- Scheduling trace of `download_clips` for a positive chunk size: the
batches' segments in order, reflecting that batch `N + 1` is not started
before `join_all` for batch `N` has returned. -/
def orchTrace (chunk_size : Nat) (tasks : List α) : List (Ev α) :=
  (chunksOf chunk_size tasks).flatMap batchSeg

/-- Number of transfers in flight after a (finite) event sequence: begins
minus settles (truncated subtraction; traces never settle more than they
begin). -/
def inFlight (l : List (Ev α)) : Nat :=
  l.countP Ev.isBegin - l.countP Ev.isSettle

/-! ## Streaming download (`lib.rs` `download_file`) -/

/-- File-system effects a `download_file` task can perform at its destination
path. -/
inductive FsEvent where
  | created
  | wrote (bytes : Bytes)
  | failedWrite (bytes : Bytes)
deriving DecidableEq, Repr

/-- One item of the streamed response body: a chunk of bytes together with
the outcome of the `write_all` for it, or a mid-stream transport error. -/
inductive StreamItem where
  | chunk (bytes : Bytes) (writeOk : Bool)
  | transportError (msg : String)
deriving DecidableEq, Repr

/-- Write loop of `download_file` (`lib.rs` lines 130-143): write each chunk
as it arrives; a failed write or a stream error logs and returns, aborting
the task. Returns the file-system effects and whether the download ran to
completion. -/
def writeLoop : List StreamItem → List FsEvent × Bool
  | [] => ([], true)
  | StreamItem.transportError _ :: _ => ([], false)
  | StreamItem.chunk bs ok :: rest =>
      if ok then
        let next := writeLoop rest
        (FsEvent.wrote bs :: next.1, next.2)
      else ([FsEvent.failedWrite bs], false)

/-- Translation of `download_file` (`lib.rs` lines 110-146). The GET request
outcome, the `File::create` outcome and the body stream are oracle inputs.
On a request failure the function logs and returns before `File::create` is
reached, so no file-system effect happens; a failed `File::create` obtains no
handle (its effect on the file system is not modelled and not needed by any
claim). -/
def download_file (requestResult : Except String Unit) (createResult : Except String Unit)
    (stream : List StreamItem) : List FsEvent × Bool :=
  match requestResult with
  | Except.error _ => ([], false)
  | Except.ok _ =>
      match createResult with
      | Except.error _ => ([], false)
      | Except.ok _ =>
          let next := writeLoop stream
          (FsEvent.created :: next.1, next.2)

/-! ## Specification devices used by the proofs -/

/-- Correspondence invariant between the `Iterator::max` accumulator and the
index-level accumulator of `argmaxLastAux`. -/
def MaxAccRel (full : List SourceFile) : Option SourceFile → Option (Nat × Nat) → Prop
  | none, none => True
  | some m, some p => p.2 = m.quality ∧ full[p.1]? = some m
  | none, some _ => False
  | some _, none => False

/-- Successful part of a partition result (`Ok(clip_sublist)`). -/
def okPart : Except String (List ClipRecord) → Option (List ClipRecord)
  | Except.ok l => some l
  | Except.error _ => none

/-- Logged part of a partition result (`Err(err)`). -/
def errPart : Except String (List ClipRecord) → Option String
  | Except.ok _ => none
  | Except.error e => some e

/-- Exact characterization of the chunk list the `split_date_range` while
loop emits from position `cur`: each chunk starts at the running position and
ends at `min (cur + step) e`, and the loop stops exactly when the position
reaches `e`. -/
def ChunksSpec (e step : Int) : Int → List (Int × Int) → Prop
  | cur, [] => e ≤ cur
  | cur, c :: rest => cur < e ∧ c.1 = cur ∧ c.2 = min (cur + step) e ∧ ChunksSpec e step c.2 rest

/-! ## Concrete sample inputs used by witnesses -/

/-- Sample metadata response: token value is the bytes of `a=b&c` (the spec's
P4 example), signature is alphanumeric, one 1080p rendition at 59.94 fps. -/
def sampleResponse : VideoSourceResponse :=
  { data :=
      { clip :=
          { playback_access_token :=
              { signature := strBytes "sig0abc"
                value := [97, 61, 98, 38, 99] }
            video_qualities :=
              [{ quality := "1080"
                 frame_rate := mkRat 5994 100
                 source_url := strBytes "https://production.example/clip.mp4" }] } }
    extensions :=
      { duration_milliseconds := 30
        operation_name := "VideoAccessToken_Clip"
        request_id := "r1" } }

/-! ## Theorems -/

/-- Folding `maxStep` from a non-empty accumulator yields an element that is
the accumulator or a list element, is at least the accumulator, and bounds
every list element's quality. -/
lemma foldl_maxStep_some (xs : List SourceFile) :
    ∀ m : SourceFile, ∃ b, xs.foldl maxStep (some m) = some b
      ∧ (b = m ∨ b ∈ xs) ∧ m.quality ≤ b.quality ∧ ∀ x ∈ xs, x.quality ≤ b.quality := by
  induction xs with
  | nil =>
      intro m
      exact ⟨m, rfl, Or.inl rfl, le_refl _, by simp⟩
  | cons x rest ih =>
      intro m
      by_cases h : SourceFile.cmp m x = Ordering.gt
      · have hxm : x.quality < m.quality := by
          simpa [SourceFile.cmp, Nat.compare_eq_gt] using h
        obtain ⟨b, hb, hmem, hle, hall⟩ := ih m
        refine ⟨b, by simpa [maxStep, h] using hb, ?_, hle, ?_⟩
        · rcases hmem with h1 | h1
          · exact Or.inl h1
          · exact Or.inr (List.mem_cons_of_mem _ h1)
        · intro y hy
          rcases List.mem_cons.mp hy with rfl | hy'
          · exact le_trans (le_of_lt hxm) hle
          · exact hall y hy'
      · have hmx : m.quality ≤ x.quality := by
          have := (Nat.compare_eq_gt (a := m.quality) (b := x.quality)).not.mp
            (by simpa [SourceFile.cmp] using h)
          omega
        obtain ⟨b, hb, hmem, hle, hall⟩ := ih x
        refine ⟨b, by simpa [maxStep, h] using hb, ?_, le_trans hmx hle, ?_⟩
        · rcases hmem with h1 | h1
          · exact Or.inr (h1 ▸ List.mem_cons_self x rest)
          · exact Or.inr (List.mem_cons_of_mem _ h1)
        · intro y hy
          rcases List.mem_cons.mp hy with rfl | hy'
          · exact hle
          · exact hall y hy'

/-- The `maxStep` fold and `argmaxLastAux` stay in correspondence: the fold's
result sits at the index the quality-only recursion computes. -/
lemma foldl_maxStep_argmax (xs : List SourceFile) :
    ∀ (i : Nat) (m : Option SourceFile) (p : Option (Nat × Nat)) (full : List SourceFile),
      full.drop i = xs → MaxAccRel full m p →
      MaxAccRel full (xs.foldl maxStep m) (argmaxLastAux i p (xs.map SourceFile.quality)) := by
  induction xs with
  | nil =>
      intro i m p full _ hrel
      simpa [argmaxLastAux] using hrel
  | cons x rest ih =>
      intro i m p full hdrop hrel
      have hx : full[i]? = some x := by
        have h0 := List.getElem?_drop full i 0
        rw [hdrop] at h0
        simpa using h0.symm
      have hdrop' : full.drop (i + 1) = rest := by
        have h1 : full.drop (i + 1) = (full.drop i).drop 1 := by
          rw [List.drop_drop]
        rw [h1, hdrop]
        rfl
      cases m with
      | none =>
          cases p with
          | none =>
              simp only [List.foldl_cons, List.map_cons, argmaxLastAux, maxStep]
              exact ih (i + 1) (some x) (some (i, x.quality)) full hdrop' ⟨rfl, hx⟩
          | some pp =>
              simp [MaxAccRel] at hrel
      | some mv =>
          cases p with
          | none =>
              simp [MaxAccRel] at hrel
          | some pp =>
              obtain ⟨mi, mq⟩ := pp
              obtain ⟨hq, hget⟩ := hrel
              simp only at hq
              subst hq
              by_cases hc : compare mv.quality x.quality = Ordering.gt
              · simp only [List.foldl_cons, List.map_cons, argmaxLastAux, maxStep,
                  SourceFile.cmp, hc, if_pos]
                exact ih (i + 1) (some mv) (some (mi, mv.quality)) full hdrop' ⟨rfl, hget⟩
              · simp only [List.foldl_cons, List.map_cons, argmaxLastAux, maxStep,
                  SourceFile.cmp, hc, if_neg, if_false]
                exact ih (i + 1) (some x) (some (i, x.quality)) full hdrop' ⟨rfl, hx⟩

/-- Selection by `Iterator::max` is a function of the quality list alone: the
winner sits at the index `argmaxLast` computes from the qualities. -/
lemma rustIterMax_eq_argmax (l : List SourceFile) :
    rustIterMax l = (argmaxLast (l.map SourceFile.quality)).bind (fun p => l[p.1]?) := by
  have h := foldl_maxStep_argmax l 0 none none l (by simp) (by simp [MaxAccRel])
  unfold rustIterMax argmaxLast
  rcases h1 : l.foldl maxStep none with _ | b <;>
    rcases h2 : argmaxLastAux 0 none (l.map SourceFile.quality) with _ | p <;>
      rw [h1, h2] at h <;> simp [MaxAccRel] at h ⊢
  exact h.2.symm

/-- C1: on a non-empty resolved candidate set, best-candidate selection
returns a candidate of the set with maximal quality; the position of the
winner is a function of the quality values only (frame rate and URL are never
consulted); on the empty set, selection fails with the no-source error. -/
theorem C1_best_candidate_selection (l : List SourceFile) :
    (l = [] → selectBest l = Except.error ResolveError.noSourceFound)
    ∧ (l ≠ [] → ∃ b, selectBest l = Except.ok b ∧ b ∈ l ∧ ∀ x ∈ l, x.quality ≤ b.quality)
    ∧ rustIterMax l = (argmaxLast (l.map SourceFile.quality)).bind (fun p => l[p.1]?) := by
  refine ⟨?_, ?_, rustIterMax_eq_argmax l⟩
  · rintro rfl
    rfl
  · intro hne
    obtain ⟨x, xs, rfl⟩ := List.exists_cons_of_ne_nil hne
    obtain ⟨b, hb, hmem, _, hall⟩ := foldl_maxStep_some xs x
    have hfold : rustIterMax (x :: xs) = some b := by
      simpa [rustIterMax, maxStep] using hb
    refine ⟨b, by simp [selectBest, hfold], ?_, ?_⟩
    · rcases hmem with rfl | h1
      · exact List.mem_cons_self _ _
      · exact List.mem_cons_of_mem _ h1
    · intro y hy
      rcases List.mem_cons.mp hy with rfl | hy'
      · rcases hmem with rfl | _
        · exact le_refl _
        · obtain ⟨_, _, _, hle, _⟩ := foldl_maxStep_some xs y
          exact by
            obtain ⟨b', hb', _, hle', _⟩ := foldl_maxStep_some xs y
            have : b' = b := by
              have := hb'.symm.trans hb
              exact Option.some.inj this
            exact this ▸ hle'
      · exact hall y hy'

/-- Witness for C1 at the spec's P3 candidate set: qualities 160, 480, 720,
1080 select the 1080 candidate. -/
theorem C1_best_candidate_selection_witness :
    ∃ b, selectBest
        [⟨160, 30, [0]⟩, ⟨480, 30, [1]⟩, ⟨720, 60, [2]⟩, ⟨1080, 60, [3]⟩] = Except.ok b
      ∧ b ∈ [⟨160, 30, [0]⟩, ⟨480, 30, [1]⟩, ⟨720, 60, [2]⟩, (⟨1080, 60, [3]⟩ : SourceFile)]
      ∧ ∀ x ∈ [⟨160, 30, [0]⟩, ⟨480, 30, [1]⟩, ⟨720, 60, [2]⟩, (⟨1080, 60, [3]⟩ : SourceFile)],
          x.quality ≤ b.quality :=
  (C1_best_candidate_selection
    [⟨160, 30, [0]⟩, ⟨480, 30, [1]⟩, ⟨720, 60, [2]⟩, ⟨1080, 60, [3]⟩]).2.1 (by decide)

/-- Successful run of the formatting loop: when every quality label parses,
each rendition yields one candidate, in order, whose URL is the base path
followed by `?sig=`, the raw signature, `&token=`, and the encoded token. -/
lemma formatList_ok (sig tok : Bytes) (qs : List VideoQuality)
    (h : ∀ q ∈ qs, (parseU32 q.quality).isSome) :
    ∃ files, formatList sig tok qs = Except.ok files
      ∧ files.length = qs.length
      ∧ ∀ (i : Nat) (q : VideoQuality), qs[i]? = some q → ∃ v, parseU32 q.quality = some v ∧
          files[i]? = some
            { quality := v
              frame_rate := f32RoundAsU32 q.frame_rate
              url := q.source_url ++ strBytes "?sig=" ++ sig ++ strBytes "&token=" ++ tok } := by
  induction qs with
  | nil =>
      exact ⟨[], rfl, rfl, by intro i q hq; simp at hq⟩
  | cons q rest ih =>
      have hq : (parseU32 q.quality).isSome := h q (List.mem_cons_self _ _)
      obtain ⟨v, hv⟩ := Option.isSome_iff_exists.mp hq
      obtain ⟨files, hfl, hlen, hidx⟩ := ih (fun q' hq' => h q' (List.mem_cons_of_mem _ hq'))
      refine ⟨{ quality := v
                frame_rate := f32RoundAsU32 q.frame_rate
                url := q.source_url ++ strBytes "?sig=" ++ sig ++ strBytes "&token=" ++ tok }
              :: files, ?_, by simpa using hlen, ?_⟩
      · simp [formatList, formatOne, hv, hfl]
      · intro i q' hq'
        cases i with
        | zero =>
            have hqq : q' = q := by
              have := hq'
              simp only [List.getElem?_cons_zero, Option.some.injEq] at this
              exact this.symm
            subst hqq
            exact ⟨v, hv, by simp⟩
        | succ j =>
            simp only [List.getElem?_cons_succ] at hq' ⊢
            exact hidx j q' hq'

/-- C2: when all quality labels parse, the Quality Resolver succeeds and
builds, per rendition and in order, the URL `u ++ "?sig=" ++ s ++ "&token="
++ percentEncode t` with the raw signature verbatim and the token value
percent-encoded; the encoding leaves exactly the ASCII alphanumeric bytes
unescaped and turns every other byte into a `%XX` triple; quality labels are
parsed as unsigned 32-bit integers and frame rates are rounded to the nearest
integer (ties away from zero, saturated into `u32`). -/
theorem C2_url_construction (response : VideoSourceResponse)
    (h : ∀ q ∈ response.data.clip.video_qualities, (parseU32 q.quality).isSome) :
    (∃ files, format_source_urls response = Except.ok files
      ∧ files.length = response.data.clip.video_qualities.length
      ∧ ∀ (i : Nat) (q : VideoQuality), response.data.clip.video_qualities[i]? = some q →
          ∃ v, parseU32 q.quality = some v ∧
            files[i]? = some
              { quality := v
                frame_rate := f32RoundAsU32 q.frame_rate
                url := q.source_url ++ strBytes "?sig="
                  ++ response.data.clip.playback_access_token.signature
                  ++ strBytes "&token="
                  ++ percentEncode response.data.clip.playback_access_token.value })
    ∧ (∀ b, isAsciiAlphanum b = true → encodeByte b = [b])
    ∧ (∀ b, isAsciiAlphanum b = false →
        encodeByte b = [37, hexDigitUpper (b / 16), hexDigitUpper (b % 16)]) := by
  refine ⟨?_, ?_, ?_⟩
  · exact formatList_ok _ _ _ h
  · intro b hb
    simp [encodeByte, hb]
  · intro b hb
    simp [encodeByte, hb]

/-- Witness for C2 at `sampleResponse`: the token `a=b&c` is encoded, the
signature is kept verbatim, the `1080` label parses, 59.94 rounds to 60. -/
theorem C2_url_construction_witness :
    (∃ files, format_source_urls sampleResponse = Except.ok files
      ∧ files.length = sampleResponse.data.clip.video_qualities.length
      ∧ ∀ (i : Nat) (q : VideoQuality), sampleResponse.data.clip.video_qualities[i]? = some q →
          ∃ v, parseU32 q.quality = some v ∧
            files[i]? = some
              { quality := v
                frame_rate := f32RoundAsU32 q.frame_rate
                url := q.source_url ++ strBytes "?sig="
                  ++ sampleResponse.data.clip.playback_access_token.signature
                  ++ strBytes "&token="
                  ++ percentEncode sampleResponse.data.clip.playback_access_token.value })
    ∧ (∀ b, isAsciiAlphanum b = true → encodeByte b = [b])
    ∧ (∀ b, isAsciiAlphanum b = false →
        encodeByte b = [37, hexDigitUpper (b / 16), hexDigitUpper (b % 16)]) :=
  C2_url_construction sampleResponse (by decide)

/-- Concrete evaluation backing the witness: the sample token's reserved
bytes are percent-encoded with uppercase hex, alphanumerics kept. -/
theorem C2_sample_encoding_eval :
    percentEncode [97, 61, 98, 38, 99] = strBytes "a%3Db%26c"
      ∧ parseU32 "1080" = some 1080
      ∧ f32RoundAsU32 (mkRat 5994 100) = 60 := by
  decide

/-- C10: if the initial GET of a download task fails, `download_file` returns
before `File::create` is reached, so the task performs no file-system effect
at the destination (no empty or partial file appears); conversely any
file-system effect implies the request had succeeded, so a truncated file can
only result from a failure after a successful request. -/
theorem C10_request_failure_leaves_fs_unchanged (e : String)
    (createResult : Except String Unit) (stream : List StreamItem) :
    (download_file (Except.error e) createResult stream).1 = []
    ∧ ∀ requestResult : Except String Unit,
        (download_file requestResult createResult stream).1 ≠ [] →
          requestResult = Except.ok () := by
  refine ⟨rfl, ?_⟩
  intro r hr
  cases r with
  | error e' => exact absurd rfl hr
  | ok u => cases u; rfl

/-- Witness for C10: a refused request with a would-be-successful create and
a two-chunk body stream produces no file-system event. -/
theorem C10_request_failure_leaves_fs_unchanged_witness :
    (download_file (Except.error "connection refused") (Except.ok ())
        [StreamItem.chunk [1, 2] true, StreamItem.chunk [3] true]).1 = []
    ∧ ∀ requestResult : Except String Unit,
        (download_file requestResult (Except.ok ())
            [StreamItem.chunk [1, 2] true, StreamItem.chunk [3] true]).1 ≠ [] →
          requestResult = Except.ok () :=
  C10_request_failure_leaves_fs_unchanged "connection refused" (Except.ok ())
    [StreamItem.chunk [1, 2] true, StreamItem.chunk [3] true]

/-- Successful pagination run: with every non-final page carrying a cursor
and the final page omitting it, the loop returns the concatenation of the
pages' records and issues one request per page, each equal to the base
request with only the `after` cursor varying. -/
lemma getClipsGo_ok (last : Page) (hl : last.pagination = none) :
    ∀ (body : List Page) (req : GetClipsRequest) (cursor : Option String)
      (acc : List ClipRecord),
      (∀ p ∈ body, p.pagination.isSome) →
      getClipsGo ((body ++ [last]).map Except.ok) req cursor acc =
        ((cursor :: body.map Page.pagination).map (fun c => { req with after := c }),
         Except.ok (acc ++ ((body ++ [last]).map Page.data).flatten)) := by
  intro body
  induction body with
  | nil =>
      intro req cursor acc _
      simp [getClipsGo, hl]
  | cons p rest ih =>
      intro req cursor acc hb
      obtain ⟨c, hc⟩ := Option.isSome_iff_exists.mp (hb p (List.mem_cons_self _ _))
      have hrest : ∀ p' ∈ rest, p'.pagination.isSome :=
        fun p' h' => hb p' (List.mem_cons_of_mem _ h')
      simp only [List.cons_append, List.map_cons, getClipsGo, hc, List.append_eq]
      rw [ih { req with after := cursor } (some c) (acc ++ p.data) hrest]
      simp [hc, List.append_assoc]

/-- C3: for a page sequence in which exactly the final page omits the
continuation cursor and every request succeeds, the Listing Fetcher
terminates and returns exactly the concatenation of the pages' records in
arrival order; the request trace has one request per page, every request
keeps the base filters unchanged, the first request carries no cursor and
each later request carries the previous page's cursor. -/
theorem C3_pagination_concatenates (broadcaster_id started_at ended_at : String)
    (first : Option Nat) (body : List Page) (last : Page)
    (hb : ∀ p ∈ body, p.pagination.isSome) (hl : last.pagination = none) :
    get_clips broadcaster_id started_at ended_at first ((body ++ [last]).map Except.ok)
      = ((none :: body.map Page.pagination).map
          (fun c =>
            { broadcaster_id := broadcaster_id
              started_at := some started_at
              ended_at := some ended_at
              first := first
              after := c }),
         Except.ok (((body ++ [last]).map Page.data).flatten)) := by
  unfold get_clips
  rw [getClipsGo_ok last hl body _ none [] hb]
  rfl

/-- Witness for C3: two pages, the first with records `c1, c2` and cursor
`cur1`, the second with record `c3` and no cursor. -/
theorem C3_pagination_concatenates_witness :
    get_clips "42" "2024-01-01" "2024-01-08" (some 100)
        (([(⟨["c1", "c2"], some "cur1"⟩ : Page)] ++ [(⟨["c3"], none⟩ : Page)]).map Except.ok)
      = ((none :: [(⟨["c1", "c2"], some "cur1"⟩ : Page)].map Page.pagination).map
          (fun c =>
            { broadcaster_id := "42"
              started_at := some "2024-01-01"
              ended_at := some "2024-01-08"
              first := some 100
              after := c }),
         Except.ok ((([(⟨["c1", "c2"], some "cur1"⟩ : Page)] ++ [(⟨["c3"], none⟩ : Page)]).map
            Page.data).flatten)) :=
  C3_pagination_concatenates "42" "2024-01-01" "2024-01-08" (some 100)
    [⟨["c1", "c2"], some "cur1"⟩] ⟨["c3"], none⟩ (by decide) (by decide)

/-- Failing pagination run: once the loop reaches a failing request, the
whole fetch evaluates to that error. -/
lemma getClipsGo_error (e : String) (rest : List (Except String Page)) :
    ∀ (okPages : List Page) (req : GetClipsRequest) (cursor : Option String)
      (acc : List ClipRecord),
      (∀ p ∈ okPages, p.pagination.isSome) →
      (getClipsGo (okPages.map Except.ok ++ Except.error e :: rest) req cursor acc).2
        = Except.error e := by
  intro okPages
  induction okPages with
  | nil =>
      intro req cursor acc _
      rfl
  | cons p ps ih =>
      intro req cursor acc hb
      obtain ⟨c, hc⟩ := Option.isSome_iff_exists.mp (hb p (List.mem_cons_self _ _))
      simp only [List.map_cons, List.cons_append, getClipsGo, hc]
      exact ih { req with after := cursor } (some c) (acc ++ p.data)
        (fun p' h' => hb p' (List.mem_cons_of_mem _ h'))

/-- C7: if any page request of a window's pagination loop fails (after any
number of successfully cursored pages), the Listing Fetcher returns the
error; the `Except.error` result carries no records, so none of the records
already accumulated for the window are delivered. -/
theorem C7_fail_fast_discards_partial (broadcaster_id started_at ended_at : String)
    (first : Option Nat) (okPages : List Page) (e : String)
    (rest : List (Except String Page))
    (h : ∀ p ∈ okPages, p.pagination.isSome) :
    (get_clips broadcaster_id started_at ended_at first
        (okPages.map Except.ok ++ Except.error e :: rest)).2 = Except.error e := by
  unfold get_clips
  exact getClipsGo_error e rest okPages _ none [] h

/-- Witness for C7: one successful page with a cursor, then a decode failure;
the fetch yields the error, not the accumulated record `c1`. -/
theorem C7_fail_fast_discards_partial_witness :
    (get_clips "42" "2024-01-01" "2024-01-08" (some 100)
        ([(⟨["c1"], some "cur1"⟩ : Page)].map Except.ok
          ++ Except.error "decode failure" :: [])).2 = Except.error "decode failure" :=
  C7_fail_fast_discards_partial "42" "2024-01-01" "2024-01-08" (some 100)
    [⟨["c1"], some "cur1"⟩] "decode failure" [] (by decide)

/-- The merge fold of `get_clips_chunked` splits any result list into the
concatenated successful sublists (in order) and the logged errors (in
order). -/
lemma mergeChunkResults_spec :
    ∀ (results : List (Except String (List ClipRecord))) (init : List ClipRecord × List String),
      results.foldl
        (fun acc r =>
          match r with
          | Except.ok sub => (acc.1 ++ sub, acc.2)
          | Except.error err => (acc.1, acc.2 ++ [err]))
        init
      = (init.1 ++ (results.filterMap okPart).flatten, init.2 ++ results.filterMap errPart) := by
  intro results
  induction results with
  | nil =>
      intro init
      simp
  | cons r rest ih =>
      intro init
      cases r with
      | ok sub =>
          simp only [List.foldl_cons, ih, List.filterMap_cons, okPart, errPart,
            List.flatten_cons, List.append_assoc]
      | error err =>
          simp [List.foldl_cons, ih, List.filterMap_cons, okPart, errPart,
            List.flatten_cons, List.append_assoc]

/-- C8: when the range splits normally, the chunked fetch always completes
(no partition failure is escalated), its merged clip list is exactly the
concatenation, in partition order, of the successful partitions' record
lists, and each failed partition contributes only its logged error. Since
the merged value is determined pointwise by each partition's own result, a
failing subset leaves every other partition's contribution unchanged. -/
theorem C8_partition_failure_isolation (start _end : Int) (chunking_type : DateChunkingType)
    (fetch : Int × Int → Except String (List ClipRecord)) (ranges : List (Int × Int))
    (h : split_date_range start _end chunking_type = some ranges) :
    get_clips_chunked start _end chunking_type fetch
      = some (((ranges.map fetch).filterMap okPart).flatten,
              (ranges.map fetch).filterMap errPart) := by
  unfold get_clips_chunked mergeChunkResults
  rw [h]
  show some _ = some _
  simp only [mergeChunkResults_spec, List.nil_append]

/-- Witness for C8: a two-partition split where the second partition fails;
the merged list is the first partition's records, the error is only logged. -/
theorem C8_partition_failure_isolation_witness :
    get_clips_chunked 0 2 (DateChunkingType.ByDuration 1)
        (fun r => if r = ((0 : Int), (1 : Int)) then Except.ok ["a", "b"]
                  else Except.error "partition failed")
      = some ((([((0 : Int), (1 : Int)), ((1 : Int), (2 : Int))].map
            (fun r => if r = ((0 : Int), (1 : Int)) then Except.ok ["a", "b"]
                      else Except.error "partition failed")).filterMap okPart).flatten,
          ([((0 : Int), (1 : Int)), ((1 : Int), (2 : Int))].map
            (fun r => if r = ((0 : Int), (1 : Int)) then Except.ok ["a", "b"]
                      else Except.error "partition failed")).filterMap errPart) :=
  C8_partition_failure_isolation 0 2 (DateChunkingType.ByDuration 1)
    (fun r => if r = ((0 : Int), (1 : Int)) then Except.ok ["a", "b"]
              else Except.error "partition failed")
    [((0 : Int), (1 : Int)), ((1 : Int), (2 : Int))] (by decide)

/-- With a positive step and sufficient fuel, the fuelled while loop of
`split_date_range` succeeds and its output satisfies `ChunksSpec`. -/
lemma splitLoop_some (e step : Int) (hstep : 0 < step) :
    ∀ (fuel : Nat) (cur : Int), (e - cur).toNat < fuel →
      ∃ l, splitLoop fuel e step cur = some l ∧ ChunksSpec e step cur l := by
  intro fuel
  induction fuel with
  | zero =>
      intro cur h
      omega
  | succ f ih =>
      intro cur hf
      by_cases hc : cur < e
      · have h1 : cur < min (cur + step) e := lt_min (by omega) hc
        have h2 : min (cur + step) e ≤ e := min_le_right _ _
        have hf' : (e - min (cur + step) e).toNat < f := by omega
        obtain ⟨l, hl, hspec⟩ := ih (min (cur + step) e) hf'
        refine ⟨(cur, min (cur + step) e) :: l, ?_, ?_⟩
        · simp [splitLoop, hc, hl]
        · exact ⟨hc, rfl, rfl, hspec⟩
      · refine ⟨[], by simp [splitLoop, hc], ?_⟩
        simp only [ChunksSpec]
        omega

/-- Consequences of `ChunksSpec`: the chunks start at the initial position,
end exactly at `e`, chain contiguously, and each has positive length at most
`step`, with length exactly `step` unless it is the final clamped chunk. -/
lemma ChunksSpec_props (e step : Int) (hstep : 0 < step) :
    ∀ (l : List (Int × Int)) (cur : Int), ChunksSpec e step cur l →
      (l = [] → e ≤ cur)
      ∧ (l ≠ [] → l.head?.map Prod.fst = some cur ∧ l.getLast?.map Prod.snd = some e)
      ∧ List.Chain' (fun p q : Int × Int => p.2 = q.1) l
      ∧ ∀ p ∈ l, p.1 < p.2 ∧ p.2 - p.1 ≤ step ∧ (p.2 ≠ e → p.2 - p.1 = step) := by
  intro l
  induction l with
  | nil =>
      intro cur hspec
      refine ⟨fun _ => hspec, fun h => absurd rfl h, List.chain'_nil, ?_⟩
      intro p hp
      simp at hp
  | cons c rest ih =>
      intro cur hspec
      obtain ⟨hlt, h1, h2, hrest⟩ := hspec
      obtain ⟨hnil, hne, hchain, hall⟩ := ih c.2 hrest
      refine ⟨fun h => by simp at h, ?_, ?_, ?_⟩
      · intro _
        constructor
        · simp [h1]
        · cases rest with
          | nil =>
              have he : e ≤ c.2 := hnil rfl
              have : c.2 = e := by omega
              simp [this]
          | cons d rest' =>
              rw [List.getLast?_cons_cons]
              exact (hne (by simp)).2
      · rw [List.chain'_cons']
        refine ⟨?_, hchain⟩
        intro y hy
        cases rest with
        | nil => simp at hy
        | cons d rest' =>
            simp only [List.head?_cons, Option.mem_def, Option.some.injEq] at hy
            subst hy
            exact (hrest.2.1).symm
      · intro p hp
        rcases List.mem_cons.mp hp with rfl | hp'
        · refine ⟨by omega, by omega, ?_⟩
          intro hne2
          omega
        · exact hall p hp'

/-- C4 counterexample: for the range `[0, 10)` and chunk count 3 the
partitioner returns 4 sub-ranges, not "3 (or fewer only if clamped)": the
truncated step `10 tdiv 3 = 3` forces a fourth, clamped chunk. -/
theorem C4_counterexample :
    split_date_range 0 10 (DateChunkingType.ByNumber 3)
        = some [(0, 3), (3, 6), (6, 9), (9, 10)]
      ∧ (split_date_range 0 10 (DateChunkingType.ByNumber 3)).map List.length = some 4
      ∧ (4 : Nat) ≠ 3 := by
  decide

/-- C4 (amended): for `start < end` and a chunk count `k` with
`k ≤ end - start` (so the truncated step is at least one unit), the
partitioner succeeds and returns a non-empty sequence of contiguous,
non-overlapping sub-ranges that starts at `start`, ends exactly at `end`,
each of duration `(end - start) tdiv k`, except possibly the last, which is
clamped to `end`; the number of sub-ranges may exceed `k`. -/
theorem C4_partition_covers (s e : Int) (k : Nat) (hse : s < e) (hk : 0 < k)
    (hks : (k : Int) ≤ e - s) :
    ∃ l, split_date_range s e (DateChunkingType.ByNumber k) = some l
      ∧ l ≠ []
      ∧ l.head?.map Prod.fst = some s
      ∧ l.getLast?.map Prod.snd = some e
      ∧ List.Chain' (fun p q : Int × Int => p.2 = q.1) l
      ∧ ∀ p ∈ l, p.1 < p.2 ∧ p.2 - p.1 ≤ Int.tdiv (e - s) k
        ∧ (p.2 ≠ e → p.2 - p.1 = Int.tdiv (e - s) k) := by
  have hstep : 0 < Int.tdiv (e - s) k := by
    rw [Int.tdiv_eq_ediv (by omega) (by omega)]
    have h1 : (1 : Int) ≤ (e - s) / (k : Int) := by
      rw [Int.le_ediv_iff_mul_le (by omega : (0 : Int) < (k : Int))]
      omega
    omega
  obtain ⟨l, hl, hspec⟩ :=
    splitLoop_some e (Int.tdiv (e - s) k) hstep ((e - s).toNat + 1) s (by omega)
  have hprops := ChunksSpec_props e (Int.tdiv (e - s) k) hstep l s hspec
  have hne : l ≠ [] := by
    intro h
    have := hprops.1 h
    omega
  refine ⟨l, ?_, hne, (hprops.2.1 hne).1, (hprops.2.1 hne).2, hprops.2.2.1, hprops.2.2.2⟩
  simp only [split_date_range]
  rw [if_neg (by omega : ¬ k = 0), if_pos hstep]
  exact hl

/-- Witness for C4 at range `[0, 10)` with count 3: the hypotheses hold and
the four emitted chunks cover the range contiguously. -/
theorem C4_partition_covers_witness :
    ∃ l, split_date_range 0 10 (DateChunkingType.ByNumber 3) = some l
      ∧ l ≠ []
      ∧ l.head?.map Prod.fst = some 0
      ∧ l.getLast?.map Prod.snd = some 10
      ∧ List.Chain' (fun p q : Int × Int => p.2 = q.1) l
      ∧ ∀ p ∈ l, p.1 < p.2 ∧ p.2 - p.1 ≤ Int.tdiv (10 - 0) 3
        ∧ (p.2 ≠ 10 → p.2 - p.1 = Int.tdiv (10 - 0) 3) :=
  C4_partition_covers 0 10 3 (by decide) (by decide) (by decide)

/-- C9 counterexample: a chunk count of 0 does not yield the empty sequence
even on a degenerate range; computing the step divides by zero, and the Rust
program panics (modelled as `none`). -/
theorem C9_counterexample :
    split_date_range 0 0 (DateChunkingType.ByNumber 0) = none
      ∧ none ≠ some ([] : List (Int × Int)) := by
  decide

/-- C9 (amended): for every `DateRange` with `start ≥ end`, the partitioner
returns the empty sequence and does not panic, for every fixed-duration
policy and every fixed chunk count of at least 1; a chunk count of 0 panics
on the step division even for degenerate ranges. -/
theorem C9_degenerate_range_empty (s e d : Int) (n : Nat) (hse : e ≤ s) (hn : 0 < n) :
    split_date_range s e (DateChunkingType.ByDuration d) = some []
      ∧ split_date_range s e (DateChunkingType.ByNumber n) = some [] := by
  have hnotlt : ¬ s < e := by omega
  constructor
  · simp only [split_date_range]
    by_cases hd : 0 < d
    · rw [if_pos hd]
      simp [splitLoop, hnotlt]
    · rw [if_neg hd, if_neg hnotlt]
  · simp only [split_date_range]
    rw [if_neg (by omega : ¬ n = 0)]
    by_cases hstep : 0 < Int.tdiv (e - s) n
    · rw [if_pos hstep]
      simp [splitLoop, hnotlt]
    · rw [if_neg hstep, if_neg hnotlt]

/-- Witness for C9 at the degenerate range `[5, 5)` with a one-day duration
policy and a count of 7. -/
theorem C9_degenerate_range_empty_witness :
    split_date_range 5 5 (DateChunkingType.ByDuration 86400) = some []
      ∧ split_date_range 5 5 (DateChunkingType.ByNumber 7) = some [] :=
  C9_degenerate_range_empty 5 5 86400 7 (by decide) (by decide)

/-- Closed form of the batch loop of `download_clips`: folding over any chunk
list accumulates the flattened tasks into `settled`, the flattened failures
into the log, and adds every chunk's full length to the progress counter. -/
lemma download_clips_foldl (outcome : Nat → Bool) :
    ∀ (chunks : List (List Nat)) (st : OrchResult),
      chunks.foldl
        (fun st chunk =>
          { progress := st.progress + chunk.length
            settled := st.settled ++ chunk
            loggedFailures := st.loggedFailures ++ chunk.filter (fun t => !(outcome t)) })
        st
      = { progress := st.progress + chunks.flatten.length
          settled := st.settled ++ chunks.flatten
          loggedFailures := st.loggedFailures
            ++ chunks.flatten.filter (fun t => !(outcome t)) } := by
  intro chunks
  induction chunks with
  | nil =>
      intro st
      simp
  | cons ch rest ih =>
      intro st
      simp only [List.foldl_cons, ih, List.flatten_cons, List.filter_append,
        List.length_append, List.append_assoc, Nat.add_assoc]

/-- Flattening the chunks recovers the original list (any chunk width). -/
lemma chunksOfAux_flatten (c : Nat) :
    ∀ (fuel : Nat) (l : List α), l.length ≤ fuel → (chunksOfAux c fuel l).flatten = l := by
  intro fuel
  induction fuel with
  | zero =>
      intro l h
      have : l = [] := List.eq_nil_of_length_eq_zero (Nat.le_zero.mp h)
      subst this
      rfl
  | succ f ih =>
      intro l h
      cases l with
      | nil => rfl
      | cons x xs =>
          simp only [chunksOfAux, List.flatten_cons]
          rw [ih (xs.drop (c - 1)) (by rw [List.length_drop]; simp at h; omega)]
          simp [List.take_append_drop]

/-- Chunking then flattening is the identity. -/
lemma chunksOf_flatten (c : Nat) (l : List α) : (chunksOf c l).flatten = l :=
  chunksOfAux_flatten c l.length l (le_refl _)

/-- C5 counterexample: five tasks in one batch (default chunk size 10) with
exactly task 3 (index 2) failing; every task settles and the failure is
logged, but the final progress count is 5, not the 4 successes the claim
requires — `bar.inc(chunk.len())` counts settled tasks, not successes. -/
theorem C5_counterexample :
    (download_clips 5 10 (fun t => t != 2)).map OrchResult.progress = some 5
      ∧ (download_clips 5 10 (fun t => t != 2)).map OrchResult.settled
          = some [0, 1, 2, 3, 4]
      ∧ (download_clips 5 10 (fun t => t != 2)).map OrchResult.loggedFailures = some [2]
      ∧ (5 : Nat) ≠ 4 := by
  decide

/-- C5 (amended): for any task count, positive chunk size and failure
pattern, every task settles (a failure stops neither its batch siblings nor
later batches and is never raised to the caller — the orchestrator cannot
return an error), each failed task is logged, and the final progress count
advances by the number of settled tasks — successes and failures alike. -/
theorem C5_failure_isolated_progress_counts_settled (n c : Nat) (outcome : Nat → Bool)
    (hc : 0 < c) :
    ∃ r, download_clips n c outcome = some r
      ∧ r.settled = List.range n
      ∧ r.progress = n
      ∧ r.loggedFailures = (List.range n).filter (fun t => !(outcome t)) := by
  unfold download_clips
  rw [if_neg (by omega)]
  rw [download_clips_foldl]
  rw [chunksOf_flatten]
  refine ⟨_, rfl, by simp, by simp, by simp⟩

/-- Witness for C5 (amended) at the 5-task scenario with task 3 failing and
the default chunk size 10. -/
theorem C5_failure_isolated_progress_counts_settled_witness :
    ∃ r, download_clips 5 10 (fun t => t != 2) = some r
      ∧ r.settled = List.range 5
      ∧ r.progress = 5
      ∧ r.loggedFailures = (List.range 5).filter (fun t => !(t != 2)) :=
  C5_failure_isolated_progress_counts_settled 5 10 (fun t => t != 2) (by decide)

/-- Every chunk `slice::chunks` emits is non-empty and no longer than the
chunk size. -/
lemma chunksOfAux_mem (c : Nat) (hc : 0 < c) :
    ∀ (fuel : Nat) (l : List α), ∀ ch ∈ chunksOfAux c fuel l, ch.length ≤ c ∧ ch ≠ [] := by
  intro fuel
  induction fuel with
  | zero =>
      intro l ch h
      simp [chunksOfAux] at h
  | succ f ih =>
      intro l ch h
      cases l with
      | nil => simp [chunksOfAux] at h
      | cons x xs =>
          simp only [chunksOfAux] at h
          rcases List.mem_cons.mp h with rfl | h'
          · refine ⟨?_, by simp⟩
            simp only [List.length_cons, List.length_take]
            omega
          · exact ih (xs.drop (c - 1)) ch h'

/-- Every chunk except possibly the last is full. -/
lemma chunksOfAux_dropLast_full (c : Nat) (hc : 0 < c) :
    ∀ (fuel : Nat) (l : List α), l.length ≤ fuel →
      ∀ ch ∈ (chunksOfAux c fuel l).dropLast, ch.length = c := by
  intro fuel
  induction fuel with
  | zero =>
      intro l h ch hch
      have : l = [] := List.eq_nil_of_length_eq_zero (Nat.le_zero.mp h)
      subst this
      simp [chunksOfAux] at hch
  | succ f ih =>
      intro l h ch hch
      cases l with
      | nil => simp [chunksOfAux] at hch
      | cons x xs =>
          simp only [chunksOfAux] at hch
          by_cases hrest : chunksOfAux c f (xs.drop (c - 1)) = []
          · rw [hrest] at hch
            simp at hch
          · rw [List.dropLast_cons_of_ne_nil hrest] at hch
            rcases List.mem_cons.mp hch with rfl | h'
            · have hdropne : xs.drop (c - 1) ≠ [] := by
                intro hd
                apply hrest
                rw [hd]
                cases f <;> rfl
              have hlen : c - 1 < xs.length := by
                by_contra hcon
                exact hdropne (List.drop_eq_nil_iff.mpr (by omega))
              simp only [List.length_cons, List.length_take]
              omega
            · exact ih (xs.drop (c - 1)) (by rw [List.length_drop]; simp at h; omega) ch h'

/-- Count of begins among mapped begin events. -/
lemma countP_isBegin_begin (l : List α) : (l.map Ev.begin).countP Ev.isBegin = l.length := by
  rw [List.countP_map]
  simp [Function.comp_def, Ev.isBegin]

/-- Mapped settle events contain no begins. -/
lemma countP_isBegin_settle (l : List α) : (l.map Ev.settle).countP Ev.isBegin = 0 := by
  rw [List.countP_map]
  simp [Function.comp_def, Ev.isBegin]

/-- Mapped begin events contain no settles. -/
lemma countP_isSettle_begin (l : List α) : (l.map Ev.begin).countP Ev.isSettle = 0 := by
  rw [List.countP_map]
  simp [Function.comp_def, Ev.isSettle]

/-- Count of settles among mapped settle events. -/
lemma countP_isSettle_settle (l : List α) : (l.map Ev.settle).countP Ev.isSettle = l.length := by
  rw [List.countP_map]
  simp [Function.comp_def, Ev.isSettle]

/-- Within one batch segment, the number of transfers in flight never
exceeds the batch length. -/
lemma inFlight_take_batchSeg (c : Nat) (ch : List α) (hch : ch.length ≤ c) (k : Nat) :
    inFlight ((batchSeg ch).take k) ≤ c := by
  unfold batchSeg inFlight
  by_cases hk : k ≤ ch.length
  · rw [List.take_append_of_le_length (by simpa using hk)]
    rw [← List.map_take]
    rw [countP_isBegin_begin, countP_isSettle_begin]
    simp only [List.length_take]
    omega
  · have hk2 : k = (ch.map Ev.begin).length + (k - ch.length) := by
      simp only [List.length_map]
      omega
    rw [hk2, List.take_append]
    rw [List.countP_append, List.countP_append]
    rw [← List.map_take]
    rw [countP_isBegin_begin, countP_isBegin_settle, countP_isSettle_begin,
      countP_isSettle_settle]
    simp only [List.length_take]
    omega

/-- Across the whole orchestrator trace, the number of transfers in flight
never exceeds the chunk size. -/
lemma inFlight_take_flatMap (c : Nat) :
    ∀ (chunks : List (List α)), (∀ ch ∈ chunks, ch.length ≤ c) →
      ∀ k, inFlight ((chunks.flatMap batchSeg).take k) ≤ c := by
  intro chunks
  induction chunks with
  | nil =>
      intro _ k
      simp [inFlight]
  | cons ch rest ih =>
      intro h k
      simp only [List.flatMap_cons]
      by_cases hk : k ≤ (batchSeg ch).length
      · rw [List.take_append_of_le_length hk]
        exact inFlight_take_batchSeg c ch (h ch (List.mem_cons_self _ _)) k
      · have hk2 : k = (batchSeg ch).length + (k - (batchSeg ch).length) := by omega
        rw [hk2, List.take_append]
        unfold inFlight
        rw [List.countP_append, List.countP_append]
        have h1 : (batchSeg ch).countP Ev.isBegin = ch.length := by
          unfold batchSeg
          rw [List.countP_append, countP_isBegin_begin, countP_isBegin_settle]
          omega
        have h2 : (batchSeg ch).countP Ev.isSettle = ch.length := by
          unfold batchSeg
          rw [List.countP_append, countP_isSettle_begin, countP_isSettle_settle]
          omega
        have h3 := ih (fun ch' h' => h ch' (List.mem_cons_of_mem _ h'))
          (k - (batchSeg ch).length)
        unfold inFlight at h3
        omega

/-- C6: for every ordered task list and positive chunk size, the orchestrator
partitions the tasks into consecutive batches of at most the chunk size whose
concatenation is the task list, with every batch but the last full; along the
scheduling trace at most `chunk_size` transfers are ever in flight, and no
task of a later batch begins before every task of any earlier batch has
settled. -/
theorem C6_batch_boundary_ordering {α : Type} (c : Nat) (tasks : List α) (hc : 0 < c) :
    (chunksOf c tasks).flatten = tasks
      ∧ (∀ ch ∈ chunksOf c tasks, ch.length ≤ c ∧ ch ≠ [])
      ∧ (∀ ch ∈ (chunksOf c tasks).dropLast, ch.length = c)
      ∧ (∀ k, inFlight ((orchTrace c tasks).take k) ≤ c)
      ∧ ∀ (i j : Nat) (chi chj : List α) (a b : α),
          (chunksOf c tasks)[i]? = some chi → (chunksOf c tasks)[j]? = some chj →
          i < j → a ∈ chi → b ∈ chj →
          ∃ p q, orchTrace c tasks = p ++ q ∧ Ev.settle a ∈ p ∧ Ev.begin b ∈ q := by
  refine ⟨chunksOf_flatten c tasks, chunksOfAux_mem c hc tasks.length tasks, ?_, ?_, ?_⟩
  · exact chunksOfAux_dropLast_full c hc tasks.length tasks (le_refl _)
  · intro k
    exact inFlight_take_flatMap c (chunksOf c tasks)
      (fun ch h => (chunksOfAux_mem c hc tasks.length tasks ch h).1) k
  · intro i j chi chj a b hchi hchj hij ha hb
    refine ⟨((chunksOf c tasks).take (i + 1)).flatMap batchSeg,
      ((chunksOf c tasks).drop (i + 1)).flatMap batchSeg, ?_, ?_, ?_⟩
    · unfold orchTrace
      rw [← List.flatMap_append, List.take_append_drop]
    · apply List.mem_flatMap.mpr
      refine ⟨chi, ?_, ?_⟩
      · refine List.getElem?_mem (n := i) ?_
        rw [List.getElem?_take]
        simp [hchi]
      · unfold batchSeg
        exact List.mem_append_right _ (List.mem_map_of_mem _ ha)
    · apply List.mem_flatMap.mpr
      refine ⟨chj, ?_, ?_⟩
      · refine List.getElem?_mem (n := j - (i + 1)) ?_
        rw [List.getElem?_drop]
        rw [show (i + 1) + (j - (i + 1)) = j from by omega]
        exact hchj
      · unfold batchSeg
        exact List.mem_append_left _ (List.mem_map_of_mem _ hb)

/-- Witness for C6 at the spec's P6 scenario: chunk size 2 with 5 tasks. -/
theorem C6_batch_boundary_ordering_witness :
    (chunksOf 2 [10, 20, 30, 40, 50]).flatten = [10, 20, 30, 40, 50]
      ∧ (∀ ch ∈ chunksOf 2 [10, 20, 30, 40, 50], ch.length ≤ 2 ∧ ch ≠ [])
      ∧ (∀ ch ∈ (chunksOf 2 [10, 20, 30, 40, 50]).dropLast, ch.length = 2)
      ∧ (∀ k, inFlight ((orchTrace 2 [10, 20, 30, 40, 50]).take k) ≤ 2)
      ∧ ∀ (i j : Nat) (chi chj : List Nat) (a b : Nat),
          (chunksOf 2 [10, 20, 30, 40, 50])[i]? = some chi →
          (chunksOf 2 [10, 20, 30, 40, 50])[j]? = some chj →
          i < j → a ∈ chi → b ∈ chj →
          ∃ p q, orchTrace 2 [10, 20, 30, 40, 50] = p ++ q
            ∧ Ev.settle a ∈ p ∧ Ev.begin b ∈ q :=
  C6_batch_boundary_ordering 2 [10, 20, 30, 40, 50] (by decide)

/-- C6 counterexample: at chunk size 0 the orchestrator does not partition
the tasks at all — `slice::chunks(0)` panics (modelled as `none`), so the
claim's universal quantification over every chunk size fails at 0. -/
theorem C6_counterexample :
    download_clips 5 0 (fun _ => true) = none
      ∧ ∀ r : OrchResult, download_clips 5 0 (fun _ => true) ≠ some r := by
  refine ⟨rfl, ?_⟩
  intro r h
  exact Option.noConfusion h
